import Mathlib

set_option maxRecDepth 40000

/-!
Verification of the single-CPU HPCC RandomAccess (GUPS) benchmark core
(`src/core_single_cpu.c`) against its natural-language specification.

The C program works on unsigned 64-bit integers; we embed machine words as
`Nat` with explicit reduction modulo `2 ^ 64` at the points where the C
arithmetic can wrap.  Signed 64-bit quantities (the argument of
`HPCC_starts`) are embedded as `Int`.  Tables are embedded as functions
`Nat → Nat` from index to stored word.
-/

namespace RandomAccess

/-- `#define POLY 0x0000000000000007UL` (line 50). -/
def POLY : Nat := 7

/-- `#define PERIOD 1317624576693539401L` (line 51), a signed 64-bit constant. -/
def PERIOD : Int := 1317624576693539401

/-- One LFSR transition of the generator, the expression
`(ran << 1) ^ ((int64_t) ran < 0 ? POLY : 0)` appearing at lines 81-82, 98,
126 and 182 of the source.  On a `uint64_t` value `x`, `x << 1` is
`(x <<< 1) % 2 ^ 64`, and `(int64_t) x < 0` tests the top bit,
i.e. `2 ^ 63 ≤ x`. -/
def step (x : Nat) : Nat :=
  ((x <<< 1) % 2 ^ 64) ^^^ (if 2 ^ 63 ≤ x then POLY else 0)

/-- The state of the scalar generator after `k` transitions from state `1`:
this is the reference single-stream sequence described in the comment at
lines 111-118 and replayed by the verification loop at lines 180-184. -/
def r (k : Nat) : Nat := step^[k] 1

/-- `m2[i]` of `HPCC_starts` (lines 78-83): starting from `temp = 1`, entry
`i` holds `temp` after `i` double-step iterations, i.e.
`m2[i] = (step ∘ step)^[i] 1`. -/
def m2 (i : Nat) : Nat := (fun t => step (step t))^[i] 1

/-- The inner `j`-loop of `HPCC_starts` (lines 91-94): from `temp = 0`,
XOR in `m2[j]` for every set bit `j` of `ran`. -/
def applyM2 (ran : Nat) : Nat :=
  (List.range 64).foldl
    (fun temp j => if (ran >>> j) &&& 1 = 1 then temp ^^^ m2 j else temp) 0

/-- The scan `for (i=62; i>=0; i--) if ((n >> i) & 1) break;`
(lines 85-87): `topBitScan n (k+1)` checks bit `k` first and counts down;
the result is `-1` when no bit below position 63 is set. -/
def topBitScan (n : Nat) : Nat → Int
  | 0 => -1
  | k + 1 => if (n >>> k) &&& 1 = 1 then (k : Int) else topBitScan n k

/-- Entry point of the top-bit scan at lines 85-87 (`i` starts at `62`). -/
def topBitIndex (n : Nat) : Int := topBitScan n 63

/-- The main loop of `HPCC_starts` (lines 89-99): while `i > 0`, replace
`ran` by `applyM2 ran`, decrement `i`, then apply one more transition if bit
`i` of `n` is set. -/
def startsLoop (n : Nat) : Nat → Nat → Nat
  | 0, ran => ran
  | i + 1, ran =>
      startsLoop n i
        (if (n >>> i) &&& 1 = 1 then step (applyM2 ran) else applyM2 ran)

/-- `while (n < 0) n += PERIOD;` (line 74). -/
def normAdd (n : Int) : Int :=
  if n < 0 then normAdd (n + PERIOD) else n
termination_by (-n).toNat
decreasing_by simp only [PERIOD] at *; omega

/-- `while (n > PERIOD) n -= PERIOD;` (line 75). -/
def normSub (n : Int) : Int :=
  if n > PERIOD then normSub (n - PERIOD) else n
termination_by n.toNat
decreasing_by simp only [PERIOD] at *; omega

/-- `HPCC_starts` (lines 67-102): normalize `n` into `[0, PERIOD]`, return
`1` for `0`, otherwise run the binary-exponentiation loop from `ran = 2`
starting at the highest set bit of `n`. -/
def HPCC_starts (n : Int) : Nat :=
  let n1 := normSub (normAdd n)
  if n1 = 0 then 1
  else startsLoop n1.toNat (topBitIndex n1.toNat).toNat 2

/-- `#define NUPDATE (4 * TableSize)` (line 48), computed in `uint64_t`. -/
def NUPDATE (TableSize : Nat) : Nat := (4 * TableSize) % 2 ^ 64

/-- The table index `v & (TableSize-1)` used at lines 127 and 183. -/
def maskIdx (TableSize v : Nat) : Nat := v &&& (TableSize - 1)

/-- One table update `Table[v & (TableSize-1)] ^= v` (lines 127 and 183),
on a table embedded as a function from index to contents. -/
def xorUpdate (TableSize : Nat) (tab : Nat → Nat) (v : Nat) : Nat → Nat :=
  fun idx => if idx = maskIdx TableSize v then tab idx ^^^ v else tab idx

/-- Applying a list of update values to the table in order. -/
def applyVals (TableSize : Nat) (tab : Nat → Nat) (vs : List Nat) : Nat → Nat :=
  vs.foldl (xorUpdate TableSize) tab

/-- The scalar single-stream pass: `temp = 0x1; for (i=0; i<NUPDATE; i++) {
temp = step temp; Table[temp & (TableSize-1)] ^= temp; }`.  This is both the
reference loop quoted in the comment at lines 111-118 and the verification
replay at lines 180-184. -/
def scalarPass (TableSize : Nat) (tab : Nat → Nat) : Nat → Nat :=
  ((List.range (NUPDATE TableSize)).foldl
      (fun (s : Nat × (Nat → Nat)) _ =>
        (step s.1, xorUpdate TableSize s.2 (step s.1)))
      (1, tab)).2

/-- Conversion of a `uint64_t` value to the `int64_t` parameter of
`HPCC_starts` at the call on line 121. -/
def toInt64 (v : Nat) : Int := if v < 2 ^ 63 then (v : Int) else (v : Int) - 2 ^ 64

/-- Initialization of the 128 stream states (lines 120-122):
`ran[j] = HPCC_starts ((NUPDATE/128) * j)`, the argument computed in
`uint64_t` and passed as `int64_t`. -/
def streamInit (TableSize : Nat) : Nat → Nat :=
  fun j => HPCC_starts (toInt64 (NUPDATE TableSize / 128 * j % 2 ^ 64))

/-- Body of the inner stream loop (lines 125-128): advance stream `j` by one
transition and XOR the new value into the table. -/
def streamStep (TableSize : Nat) (s : (Nat → Nat) × (Nat → Nat)) (j : Nat) :
    (Nat → Nat) × (Nat → Nat) :=
  (Function.update s.1 j (step (s.1 j)), xorUpdate TableSize s.2 (step (s.1 j)))

/-- `RandomAccessUpdate` (lines 105-130): initialize 128 streams by
jump-ahead, then for `NUPDATE/128` outer iterations advance all 128 streams
in order, XORing each new value into the table; the result is the final
table. -/
def RandomAccessUpdate (TableSize : Nat) (Table : Nat → Nat) : Nat → Nat :=
  ((List.range (NUPDATE TableSize / 128)).foldl
      (fun s _ => (List.range 128).foldl (streamStep TableSize) s)
      (streamInit TableSize, Table)).2

/-- The error-counting loop of `main` (lines 186-189):
`temp = 0; for (i=0; i<TableSize; i++) if (Table[i] != i) temp++;`. -/
def errorCount (TableSize : Nat) (tab : Nat → Nat) : Nat :=
  (List.range TableSize).foldl (fun temp i => if tab i ≠ i then temp + 1 else temp) 0

/-- The pass/fail text chosen at line 192 by `temp <= 0.01*TableSize`.  The C
comparison is carried out in IEEE double arithmetic; we model the literal
`0.01` as the exact rational `1/100`.  For the table sizes and error counts
this program produces (both at most `2 ^ 29`), the rounding of `0.01` and of
the products involved never moves a `uint64_t` count across the threshold,
so the modelled predicate agrees with the machine one. -/
def verdict (TableSize temp : Nat) : String :=
  if (temp : ℚ) ≤ 1 / 100 * TableSize then "passed" else "failed"

/-- Body of the table-size derivation loop of `main` (lines 146-149):
`for (totalMem *= 0.5, logTableSize = 0, TableSize = 1; totalMem >= 1.0;
totalMem *= 0.5, logTableSize++, TableSize <<= 1);`.
`totalMem` is an IEEE double; every value it takes in this program is a power
of two between `2 ^ -1` and `2 ^ 32`, all exactly representable, so we model
it as an exact rational.  `TableSize <<= 1` is `uint64_t` arithmetic.
The loop halves `totalMem` each iteration, so it exits after at most
`⌊totalMem⌋₊ + 1` iterations; the recursion carries that iteration bound
explicitly, and `sizeLoop_eq` below recovers the unbounded `while`-loop
equation. -/
def sizeLoopAux : Nat → ℚ → Nat → Nat → Nat × Nat
  | 0, _, logTableSize, TableSize => (logTableSize, TableSize)
  | fuel + 1, totalMem, logTableSize, TableSize =>
      if 1 ≤ totalMem then
        sizeLoopAux fuel (totalMem * (1 / 2)) (logTableSize + 1)
          (TableSize * 2 % 2 ^ 64)
      else (logTableSize, TableSize)

/-- The table-size derivation loop of `main` (lines 146-149). -/
def sizeLoop (totalMem : ℚ) (logTableSize TableSize : Nat) : Nat × Nat :=
  sizeLoopAux (⌊totalMem⌋₊ + 1) totalMem logTableSize TableSize

/-- The `(logTableSize, TableSize)` pair computed by `main` (lines 141-149):
`totalMem = 1UL<<32; totalMem /= sizeof(uint64_t);` then the loop above
starting from `totalMem *= 0.5`, `logTableSize = 0`, `TableSize = 1`. -/
def mainSizeCalc : Nat × Nat := sizeLoop ((2 ^ 32 : ℚ) / 8 * (1 / 2)) 0 1

/-- `logTableSize` as computed by `main`. -/
def mainLogTableSize : Nat := mainSizeCalc.1

/-- `TableSize` as computed by `main`. -/
def mainTableSize : Nat := mainSizeCalc.2

/-- The guarded throughput rate of line 173:
`double GUPs = (realtime > 0.0 ? 1.0 / realtime : -1.0);`.  The measured
`realtime` is a wall-clock difference; we model it as an exact rational
parameter. -/
def gupsRate (realtime : ℚ) : ℚ := if 0 < realtime then 1 / realtime else -1

/-- The value printed as GUP/s at line 177, after `GUPs *= 1e-9*NUPDATE;`
(line 174).  The C literal `1e-9` denotes the IEEE double nearest to
`10 ^ -9`; we model it as the exact rational `10 ^ -9`.  Every statement
proved about this definition below is insensitive to that representation
error (about one part in `2 ^ 52`). -/
def reportedGUPs (TableSize : Nat) (realtime : ℚ) : ℚ :=
  gupsRate realtime * (1 / 10 ^ 9 * NUPDATE TableSize)

/-- Result of one run of `main` (lines 132-198) after a successful table
allocation, as a function of the measured elapsed time of the update phase.
The process aborts inside `assert` when `malloc` fails, so this models
exactly the runs the exit-code claim is about. -/
structure MainResult where
  logTableSize : Nat
  tableSize : Nat
  finalTable : Nat → Nat
  errors : Nat
  report : String
  gups : ℚ
  exitCode : Nat

/-- `main` (lines 132-198): derive the table size, initialize `Table[i] = i`,
run `RandomAccessUpdate`, compute the throughput from the measured time, run
the scalar verification replay, count mismatches, report, and `return 0`. -/
def mainRun (realtime : ℚ) : MainResult :=
  let TableSize := mainTableSize
  let updated := RandomAccessUpdate TableSize (fun i => i)
  let replayed := scalarPass TableSize updated
  let errs := errorCount TableSize replayed
  { logTableSize := mainLogTableSize
    tableSize := TableSize
    finalTable := replayed
    errors := errs
    report := verdict TableSize errs
    gups := reportedGUPs TableSize realtime
    exitCode := 0 }

/-! ### Basic facts about the transition function -/

theorem step_lt (x : Nat) : step x < 2 ^ 64 := by
  unfold step
  apply Nat.xor_lt_two_pow (Nat.mod_lt _ (by norm_num))
  split <;> norm_num [POLY]

theorem r_lt (k : Nat) : r k < 2 ^ 64 := by
  induction k with
  | zero => norm_num [r]
  | succ k _ =>
      show step^[k + 1] 1 < 2 ^ 64
      rw [Function.iterate_succ_apply']
      exact step_lt _

theorem r_succ (k : Nat) : r (k + 1) = step (r k) :=
  Function.iterate_succ_apply' step k 1

theorem m2_lt (i : Nat) : m2 i < 2 ^ 64 := by
  induction i with
  | zero => norm_num [m2]
  | succ i _ =>
      show (fun t => step (step t))^[i + 1] 1 < 2 ^ 64
      rw [Function.iterate_succ_apply']
      exact step_lt _

theorem m2_succ (i : Nat) : m2 (i + 1) = step (step (m2 i)) :=
  Function.iterate_succ_apply' (fun t => step (step t)) i 1

/-- Rearranging a XOR of four terms. -/
theorem xor_xor_xor (p q u v : Nat) :
    (p ^^^ q) ^^^ (u ^^^ v) = (p ^^^ u) ^^^ (q ^^^ v) := by
  apply Nat.eq_of_testBit_eq
  intro i
  simp only [Nat.testBit_xor]
  cases p.testBit i <;> cases q.testBit i <;> cases u.testBit i <;>
    cases v.testBit i <;> rfl

/-- The sign test `(int64_t) x < 0` on a 64-bit value is the top bit. -/
theorem top_bit_iff {x : Nat} (hx : x < 2 ^ 64) : 2 ^ 63 ≤ x ↔ x.testBit 63 = true := by
  rw [Nat.testBit_to_div_mod, decide_eq_true_eq]
  omega

/-- Shifting left distributes over XOR. -/
theorem shiftLeft_xor (a b n : Nat) : (a ^^^ b) <<< n = (a <<< n) ^^^ (b <<< n) := by
  apply Nat.eq_of_testBit_eq
  intro i
  simp only [Nat.testBit_shiftLeft, Nat.testBit_xor]
  cases Decidable.em (n ≤ i) with
  | inl h => simp [h]
  | inr h => simp [h]

/-- Truncation to 64 bits distributes over XOR. -/
theorem mod_two_pow_xor (a b n : Nat) : (a ^^^ b) % 2 ^ n = a % 2 ^ n ^^^ b % 2 ^ n := by
  apply Nat.eq_of_testBit_eq
  intro i
  simp only [Nat.testBit_mod_two_pow, Nat.testBit_xor]
  cases Decidable.em (i < n) with
  | inl h => simp [h]
  | inr h => simp [h]

/-- The transition function is GF(2)-linear on 64-bit values. -/
theorem step_xor {a b : Nat} (ha : a < 2 ^ 64) (hb : b < 2 ^ 64) :
    step (a ^^^ b) = step a ^^^ step b := by
  unfold step
  rw [shiftLeft_xor, mod_two_pow_xor,
    xor_xor_xor ((a <<< 1) % 2 ^ 64) _ ((b <<< 1) % 2 ^ 64) _]
  congr 1
  have hab : a ^^^ b < 2 ^ 64 := Nat.xor_lt_two_pow ha hb
  have habbit : (a ^^^ b).testBit 63 = (a.testBit 63 ^^ b.testBit 63) :=
    Nat.testBit_xor a b 63
  by_cases hA : 2 ^ 63 ≤ a <;> by_cases hB : 2 ^ 63 ≤ b
  · have hnab : ¬ 2 ^ 63 ≤ a ^^^ b := by
      intro h
      rw [(top_bit_iff hab).1 h, (top_bit_iff ha).1 hA, (top_bit_iff hb).1 hB]
        at habbit
      simp at habbit
    rw [if_neg hnab, if_pos hA, if_pos hB, Nat.xor_self]
  · have hA63 := (top_bit_iff ha).1 hA
    have hB63 : b.testBit 63 = false := by
      cases h : b.testBit 63
      · rfl
      · exact absurd ((top_bit_iff hb).2 h) hB
    have hyes : 2 ^ 63 ≤ a ^^^ b := by
      apply (top_bit_iff hab).2
      rw [habbit, hA63, hB63]
      rfl
    rw [if_pos hyes, if_pos hA, if_neg hB, Nat.xor_zero]
  · have hB63 := (top_bit_iff hb).1 hB
    have hA63 : a.testBit 63 = false := by
      cases h : a.testBit 63
      · rfl
      · exact absurd ((top_bit_iff ha).2 h) hA
    have hyes : 2 ^ 63 ≤ a ^^^ b := by
      apply (top_bit_iff hab).2
      rw [habbit, hA63, hB63]
      rfl
    rw [if_pos hyes, if_neg hA, if_pos hB, Nat.zero_xor]
  · have hA63 : a.testBit 63 = false := by
      cases h : a.testBit 63
      · rfl
      · exact absurd ((top_bit_iff ha).2 h) hA
    have hB63 : b.testBit 63 = false := by
      cases h : b.testBit 63
      · rfl
      · exact absurd ((top_bit_iff hb).2 h) hB
    have hnab : ¬ 2 ^ 63 ≤ a ^^^ b := by
      intro h
      rw [(top_bit_iff hab).1 h, hA63, hB63] at habbit
      simp at habbit
    rw [if_neg hnab, if_neg hA, if_neg hB, Nat.xor_zero]

theorem step_zero : step 0 = 0 := by decide

theorem step_ne_zero {v : Nat} (hv : v < 2 ^ 64) (h0 : v ≠ 0) : step v ≠ 0 := by
  unfold step
  split
  · rename_i h
    intro hx
    have h7 : (v <<< 1) % 2 ^ 64 = POLY := Nat.xor_eq_zero.1 hx
    have heven : (v <<< 1) % 2 ^ 64 % 2 = 0 := by
      rw [Nat.mod_mod_of_dvd _ (by norm_num : (2 : Nat) ∣ 2 ^ 64),
        Nat.shiftLeft_eq]
      omega
    rw [h7] at heven
    norm_num [POLY] at heven
  · rename_i h
    rw [Nat.xor_zero, Nat.shiftLeft_eq]
    have : v * 2 ^ 1 < 2 ^ 64 := by omega
    rw [Nat.mod_eq_of_lt this]
    omega

theorem r_ne_zero (k : Nat) : r k ≠ 0 := by
  induction k with
  | zero => norm_num [r]
  | succ k ih =>
      rw [r_succ]
      exact step_ne_zero (r_lt k) ih

/-! ### The squaring map `applyM2` -/

/-- The fold underlying `applyM2`, over an arbitrary list of bit positions. -/
def m2Fold (v : Nat) (js : List Nat) (temp : Nat) : Nat :=
  js.foldl (fun temp j => if (v >>> j) &&& 1 = 1 then temp ^^^ m2 j else temp) temp

theorem applyM2_eq_m2Fold (v : Nat) : applyM2 v = m2Fold v (List.range 64) 0 := rfl

/-- The bit test `(v >> j) & 1` of lines 86, 93 and 97. -/
theorem bit_test (v j : Nat) : ((v >>> j) &&& 1 = 1) ↔ v.testBit j = true := by
  rw [Nat.and_one_is_mod, Nat.shiftRight_eq_div_pow, Nat.testBit_to_div_mod,
    decide_eq_true_eq]

theorem m2Fold_nil (v temp : Nat) : m2Fold v [] temp = temp := rfl

theorem m2Fold_cons (v j : Nat) (js : List Nat) (temp : Nat) :
    m2Fold v (j :: js) temp
      = m2Fold v js (if (v >>> j) &&& 1 = 1 then temp ^^^ m2 j else temp) := rfl

theorem m2Fold_acc (v : Nat) (js : List Nat) (temp : Nat) :
    m2Fold v js temp = temp ^^^ m2Fold v js 0 := by
  induction js generalizing temp with
  | nil => simp [m2Fold_nil]
  | cons j js ih =>
      rw [m2Fold_cons, m2Fold_cons]
      by_cases h : (v >>> j) &&& 1 = 1
      · rw [if_pos h, if_pos h, ih (temp ^^^ m2 j), ih (0 ^^^ m2 j),
          Nat.zero_xor, Nat.xor_assoc]
      · rw [if_neg h, if_neg h]
        exact ih temp

theorem m2Fold_lt (v : Nat) (js : List Nat) {temp : Nat} (h : temp < 2 ^ 64) :
    m2Fold v js temp < 2 ^ 64 := by
  induction js generalizing temp with
  | nil => exact h
  | cons j js ih =>
      rw [m2Fold_cons]
      by_cases hb : (v >>> j) &&& 1 = 1
      · rw [if_pos hb]
        exact ih (Nat.xor_lt_two_pow h (m2_lt j))
      · rw [if_neg hb]
        exact ih h

theorem applyM2_lt (v : Nat) : applyM2 v < 2 ^ 64 :=
  m2Fold_lt v _ (by norm_num)

theorem m2Fold_xor (a b : Nat) (js : List Nat) :
    m2Fold (a ^^^ b) js 0 = m2Fold a js 0 ^^^ m2Fold b js 0 := by
  induction js with
  | nil => simp [m2Fold_nil]
  | cons j js ih =>
      rw [m2Fold_cons, m2Fold_cons, m2Fold_cons]
      have hxor : (((a ^^^ b) >>> j) &&& 1 = 1) ↔
          ((a ^^^ b).testBit j = true) := bit_test _ _
      have hbit : (a ^^^ b).testBit j = (a.testBit j ^^ b.testBit j) :=
        Nat.testBit_xor a b j
      by_cases hA : a.testBit j = true
      · by_cases hB : b.testBit j = true
        · have hab : ¬ ((a ^^^ b) >>> j) &&& 1 = 1 := by
            rw [hxor, hbit, hA, hB]
            simp
          rw [if_neg hab, if_pos ((bit_test a j).2 hA), if_pos ((bit_test b j).2 hB),
            m2Fold_acc a js (0 ^^^ m2 j), m2Fold_acc b js (0 ^^^ m2 j), Nat.zero_xor,
            xor_xor_xor, Nat.xor_self, Nat.zero_xor, ih]
        · have hB' : b.testBit j = false := by
            cases h : b.testBit j
            · rfl
            · exact absurd h hB
          have hab : ((a ^^^ b) >>> j) &&& 1 = 1 := by
            rw [hxor, hbit, hA, hB']
            rfl
          rw [if_pos hab, if_pos ((bit_test a j).2 hA), if_neg (by rw [bit_test, hB']; simp),
            m2Fold_acc (a ^^^ b) js (0 ^^^ m2 j), m2Fold_acc a js (0 ^^^ m2 j), ih,
            Nat.zero_xor, Nat.xor_assoc]
      · have hA' : a.testBit j = false := by
          cases h : a.testBit j
          · rfl
          · exact absurd h hA
        by_cases hB : b.testBit j = true
        · have hab : ((a ^^^ b) >>> j) &&& 1 = 1 := by
            rw [hxor, hbit, hA', hB]
            rfl
          rw [if_pos hab, if_neg (by rw [bit_test, hA']; simp), if_pos ((bit_test b j).2 hB),
            m2Fold_acc (a ^^^ b) js (0 ^^^ m2 j), m2Fold_acc b js (0 ^^^ m2 j), ih,
            Nat.zero_xor]
          rw [Nat.xor_comm (m2Fold a js 0) (m2 j ^^^ m2Fold b js 0), Nat.xor_assoc,
            Nat.xor_comm (m2Fold b js 0) (m2Fold a js 0), ← Nat.xor_assoc]
        · have hB' : b.testBit j = false := by
            cases h : b.testBit j
            · rfl
            · exact absurd h hB
          have hab : ¬ ((a ^^^ b) >>> j) &&& 1 = 1 := by
            rw [hxor, hbit, hA', hB']
            simp
          rw [if_neg hab, if_neg (by rw [bit_test, hA']; simp),
            if_neg (by rw [bit_test, hB']; simp), ih]

theorem applyM2_xor (a b : Nat) : applyM2 (a ^^^ b) = applyM2 a ^^^ applyM2 b :=
  m2Fold_xor a b (List.range 64)

theorem m2Fold_two_pow {js : List Nat} (hnd : js.Nodup) (j temp : Nat) :
    m2Fold (2 ^ j) js temp = if j ∈ js then temp ^^^ m2 j else temp := by
  induction js generalizing temp with
  | nil => simp [m2Fold_nil]
  | cons x js ih =>
      have hx : x ∉ js := (List.nodup_cons.1 hnd).1
      have hnd' : js.Nodup := (List.nodup_cons.1 hnd).2
      rw [m2Fold_cons]
      by_cases hxj : x = j
      · subst hxj
        rw [if_pos ((bit_test _ _).2 Nat.testBit_two_pow_self), ih hnd',
          if_neg hx, if_pos (List.mem_cons_self x js)]
      · have hbit : (2 ^ j).testBit x = false :=
          Nat.testBit_two_pow_of_ne (fun h => hxj h.symm)
        rw [if_neg (by rw [bit_test, hbit]; simp), ih hnd']
        by_cases hj : j ∈ js
        · rw [if_pos hj, if_pos (List.mem_cons_of_mem x hj)]
        · rw [if_neg hj, if_neg (by
            intro h
            rcases List.mem_cons.1 h with h | h
            · exact hxj h.symm
            · exact hj h)]

theorem applyM2_two_pow {j : Nat} (hj : j < 64) : applyM2 (2 ^ j) = m2 j := by
  rw [applyM2_eq_m2Fold, m2Fold_two_pow (List.nodup_range 64) j 0,
    if_pos (List.mem_range.2 hj), Nat.zero_xor]

/-- The commutation law on basis vectors: one transition followed by the
squaring map equals the squaring map followed by two transitions. -/
theorem comm_pow {j : Nat} (hj : j < 64) :
    applyM2 (step (2 ^ j)) = step (step (applyM2 (2 ^ j))) := by
  by_cases hj63 : j < 63
  · have hstep : step (2 ^ j) = 2 ^ (j + 1) := by
      unfold step
      rw [if_neg (not_le.2 (Nat.pow_lt_pow_right (by norm_num) hj63)),
        Nat.xor_zero, Nat.shiftLeft_eq, pow_one, ← pow_succ,
        Nat.mod_eq_of_lt (Nat.pow_lt_pow_right (by norm_num) (by omega))]
    rw [hstep, applyM2_two_pow (by omega), applyM2_two_pow hj, m2_succ]
  · have hj' : j = 63 := by omega
    subst hj'
    decide

/-- The commutation law for every 64-bit value, by GF(2)-linearity. -/
theorem comm_all : ∀ v, v < 2 ^ 64 → applyM2 (step v) = step (step (applyM2 v)) := by
  intro v
  induction v using Nat.strong_induction_on with
  | _ v ih =>
    intro hv
    by_cases h0 : v = 0
    · subst h0
      decide
    · have hj64 : v.log2 < 64 := (Nat.log2_lt h0).2 hv
      have hlow : 2 ^ v.log2 ≤ v := Nat.log2_self_le h0
      have hhigh : v < 2 ^ (v.log2 + 1) := Nat.lt_log2_self
      have hsplit : v ^^^ 2 ^ v.log2 = v % 2 ^ v.log2 := by
        apply Nat.eq_of_testBit_eq
        intro i
        rw [Nat.testBit_xor, Nat.testBit_mod_two_pow]
        rcases lt_trichotomy i v.log2 with hi | hi | hi
        · rw [Nat.testBit_two_pow_of_ne (by omega : v.log2 ≠ i)]
          simp [hi]
        · have h1 : v / 2 ^ v.log2 = 1 := by
            have ha : 1 ≤ v / 2 ^ v.log2 :=
              (Nat.one_le_div_iff (Nat.two_pow_pos _)).2 hlow
            have hb : v / 2 ^ v.log2 < 2 := by
              apply (Nat.div_lt_iff_lt_mul (Nat.two_pow_pos _)).2
              rw [pow_succ] at hhigh
              omega
            omega
          have hbit : v.testBit v.log2 = true := by
            rw [Nat.testBit_to_div_mod, decide_eq_true_eq, h1]
          rw [hi, hbit, Nat.testBit_two_pow_self]
          simp
        · rw [Nat.testBit_two_pow_of_ne (by omega : v.log2 ≠ i),
            Nat.testBit_eq_false_of_lt
              (lt_of_lt_of_le hhigh (Nat.pow_le_pow_right (by norm_num) (by omega)))]
          simp [show ¬ i < v.log2 by omega]
      have hmodlt : v % 2 ^ v.log2 < 2 ^ v.log2 := Nat.mod_lt _ (Nat.two_pow_pos _)
      have hv'v : v % 2 ^ v.log2 < v := lt_of_lt_of_le hmodlt hlow
      have hv'64 : v % 2 ^ v.log2 < 2 ^ 64 := lt_trans hv'v hv
      have hpow64 : (2 : Nat) ^ v.log2 < 2 ^ 64 := Nat.pow_lt_pow_right (by norm_num) hj64
      have hrecon : 2 ^ v.log2 ^^^ v % 2 ^ v.log2 = v := by
        rw [← hsplit, Nat.xor_comm v (2 ^ v.log2), ← Nat.xor_assoc, Nat.xor_self,
          Nat.zero_xor]
      calc applyM2 (step v)
          = applyM2 (step (2 ^ v.log2 ^^^ v % 2 ^ v.log2)) := by rw [hrecon]
        _ = applyM2 (step (2 ^ v.log2) ^^^ step (v % 2 ^ v.log2)) := by
              rw [step_xor hpow64 hv'64]
        _ = applyM2 (step (2 ^ v.log2)) ^^^ applyM2 (step (v % 2 ^ v.log2)) :=
              applyM2_xor _ _
        _ = step (step (applyM2 (2 ^ v.log2))) ^^^
              step (step (applyM2 (v % 2 ^ v.log2))) := by
              rw [comm_pow hj64, ih _ hv'v hv'64]
        _ = step (step (applyM2 (2 ^ v.log2) ^^^ applyM2 (v % 2 ^ v.log2))) := by
              rw [step_xor (applyM2_lt _) (applyM2_lt _), step_xor (step_lt _) (step_lt _)]
        _ = step (step (applyM2 v)) := by rw [← applyM2_xor, hrecon]

/-- On the reference sequence, the squaring map doubles the step index. -/
theorem applyM2_r (k : Nat) : applyM2 (r k) = r (2 * k) := by
  induction k with
  | zero =>
      show applyM2 1 = r 0
      rw [show (1 : Nat) = 2 ^ 0 from rfl, applyM2_two_pow (by norm_num)]
      rfl
  | succ k ih =>
      rw [r_succ, comm_all _ (r_lt k), ih, show 2 * (k + 1) = 2 * k + 1 + 1 by ring,
        r_succ, r_succ]

/-! ### Correctness of the jump-ahead `HPCC_starts` -/

/-- Invariant of the binary-exponentiation loop: starting from the `k`-th
state with `i` bits of `n` left to process, it ends at the state whose index
prepends `k` to the low `i` bits of `n`. -/
theorem startsLoop_spec (n : Nat) : ∀ (i k : Nat),
    startsLoop n i (r k) = r (k * 2 ^ i + n % 2 ^ i) := by
  intro i
  induction i with
  | zero =>
      intro k
      simp [startsLoop, Nat.mod_one]
  | succ i ih =>
      intro k
      have hbit : (n >>> i) &&& 1 = n / 2 ^ i % 2 := by
        rw [Nat.and_one_is_mod, Nat.shiftRight_eq_div_pow]
      have hmod : n % 2 ^ (i + 1) = n % 2 ^ i + 2 ^ i * (n / 2 ^ i % 2) := by
        rw [pow_succ, Nat.mod_mul]
      show startsLoop n i
          (if (n >>> i) &&& 1 = 1 then step (applyM2 (r k)) else applyM2 (r k)) = _
      rw [applyM2_r]
      by_cases h : (n >>> i) &&& 1 = 1
      · rw [if_pos h, show step (r (2 * k)) = r (2 * k + 1) from (r_succ _).symm, ih]
        have hb1 : n / 2 ^ i % 2 = 1 := by rw [← hbit]; exact h
        congr 1
        rw [hmod, hb1, pow_succ]
        ring
      · rw [if_neg h, ih]
        have hb0 : n / 2 ^ i % 2 = 0 := by
          rw [← hbit]
          omega
        congr 1
        rw [hmod, hb0, pow_succ]
        ring

/-- The top-bit scan finds `log2 n` for the inputs that occur. -/
theorem topBitScan_eq_log2 : ∀ (k n : Nat), 1 ≤ n → n < 2 ^ k →
    topBitScan n k = (Nat.log2 n : Int) := by
  intro k
  induction k with
  | zero =>
      intro n h1 h2
      omega
  | succ k ih =>
      intro n h1 h2
      show (if (n >>> k) &&& 1 = 1 then (k : Int) else topBitScan n k) = _
      have hbit : (n >>> k) &&& 1 = n / 2 ^ k % 2 := by
        rw [Nat.and_one_is_mod, Nat.shiftRight_eq_div_pow]
      have hdivlt : n / 2 ^ k < 2 := by
        apply (Nat.div_lt_iff_lt_mul (Nat.two_pow_pos _)).2
        rw [pow_succ] at h2
        omega
      by_cases h : (n >>> k) &&& 1 = 1
      · have hb1 : n / 2 ^ k % 2 = 1 := by rw [← hbit]; exact h
        have hge : 2 ^ k ≤ n := by
          by_contra hlt
          rw [Nat.div_eq_of_lt (by omega)] at hb1
          simp at hb1
        have hlog : n.log2 = k := by
          have hu : n.log2 < k + 1 := (Nat.log2_lt (by omega)).2 h2
          have hl : k ≤ n.log2 := (Nat.le_log2 (by omega)).2 hge
          omega
        rw [if_pos h, hlog]
      · have hb0 : n / 2 ^ k % 2 ≠ 1 := by rw [← hbit]; exact h
        have hlt : n < 2 ^ k := by
          rcases Nat.lt_or_ge n (2 ^ k) with h' | h'
          · exact h'
          · have ha : 1 ≤ n / 2 ^ k := (Nat.one_le_div_iff (Nat.two_pow_pos _)).2 h'
            generalize hg : n / 2 ^ k = d at ha hdivlt hb0
            omega
        rw [if_neg h]
        exact ih n h1 hlt

/-- Correctness of the core of `HPCC_starts` on `[1, 2 ^ 63)`: the
binary-exponentiation loop computes the `n`-th state of the reference
sequence. -/
theorem starts_core_correct {n : Nat} (h1 : 1 ≤ n) (h2 : n < 2 ^ 63) :
    startsLoop n (topBitIndex n).toNat 2 = r n := by
  have htop : topBitIndex n = (Nat.log2 n : Int) :=
    topBitScan_eq_log2 63 n h1 (by omega)
  have h2eq : (2 : Nat) = r 1 := by decide
  rw [htop, Int.toNat_natCast, h2eq, startsLoop_spec]
  congr 1
  have hlow : 2 ^ n.log2 ≤ n := Nat.log2_self_le (by omega)
  have hhigh : n < 2 ^ (n.log2 + 1) := Nat.lt_log2_self
  rw [pow_succ] at hhigh
  have hmod : n % 2 ^ n.log2 = n - 2 ^ n.log2 := by
    rw [Nat.mod_eq_sub_mod hlow, Nat.mod_eq_of_lt (by omega)]
  omega

/-- `PERIOD` as a natural number. -/
def PN : Nat := 1317624576693539401

theorem PERIOD_eq : PERIOD = (PN : Int) := rfl

/-- The reference sequence returns to its start after `PERIOD` steps.  The
value is obtained by evaluating the (verified) jump-ahead at `PERIOD`. -/
theorem r_PN : r PN = 1 := by
  have h := @starts_core_correct PN (by norm_num [PN]) (by norm_num [PN])
  rw [← h]
  decide

theorem r_add_PN (a : Nat) : r (a + PN) = r a := by
  show step^[a + PN] 1 = step^[a] 1
  rw [Function.iterate_add_apply]
  show step^[a] (r PN) = step^[a] 1
  rw [r_PN]

theorem r_add_mul_PN (a t : Nat) : r (a + t * PN) = r a := by
  induction t with
  | zero => simp
  | succ t ih =>
      rw [show a + (t + 1) * PN = a + t * PN + PN by ring, r_add_PN, ih]

theorem normAdd_of_nonneg {n : Int} (h : 0 ≤ n) : normAdd n = n := by
  rw [normAdd.eq_def, if_neg (not_lt.2 h)]

theorem normAdd_of_neg {n : Int} (h : n < 0) : normAdd n = normAdd (n + PERIOD) := by
  conv_lhs => rw [normAdd.eq_def]
  rw [if_pos h]

theorem normSub_of_le {n : Int} (h : n ≤ PERIOD) : normSub n = n := by
  rw [normSub.eq_def, if_neg (not_lt.2 h)]

theorem normSub_of_gt {n : Int} (h : PERIOD < n) : normSub n = normSub (n - PERIOD) := by
  conv_lhs => rw [normSub.eq_def]
  rw [if_pos h]

theorem normSub_spec_aux : ∀ (m : Nat) (n : Int), 0 ≤ n → n.toNat ≤ m →
    ∃ t : Nat, normSub n = n - t * PERIOD ∧ 0 ≤ normSub n ∧ normSub n ≤ PERIOD := by
  intro m
  induction m with
  | zero =>
      intro n h0 hm
      have hP : PERIOD = (1317624576693539401 : Int) := rfl
      have hn : n = 0 := by omega
      subst hn
      refine ⟨0, ?_, ?_, ?_⟩
      · rw [normSub_of_le (by rw [hP]; omega)]
        simp
      · rw [normSub_of_le (by rw [hP]; omega)]
      · rw [normSub_of_le (by rw [hP]; omega), hP]
        omega
  | succ m ih =>
      intro n h0 hm
      by_cases hgt : PERIOD < n
      · have hrec := normSub_of_gt hgt
        have hP : PERIOD = (1317624576693539401 : Int) := rfl
        obtain ⟨t, ht, hpos, hle⟩ := ih (n - PERIOD) (by rw [hP] at hgt ⊢; omega)
          (by rw [hP] at hgt ⊢; omega)
        exact ⟨t + 1, by rw [hrec, ht]; push_cast; ring, by rw [hrec]; exact hpos,
          by rw [hrec]; exact hle⟩
      · exact ⟨0, by rw [normSub_of_le (not_lt.1 hgt)]; simp,
          by rw [normSub_of_le (not_lt.1 hgt)]; exact h0,
          by rw [normSub_of_le (not_lt.1 hgt)]; exact not_lt.1 hgt⟩

theorem normSub_spec (n : Int) (h0 : 0 ≤ n) :
    ∃ t : Nat, normSub n = n - t * PERIOD ∧ 0 ≤ normSub n ∧ normSub n ≤ PERIOD :=
  normSub_spec_aux n.toNat n h0 le_rfl

/-- Full correctness of `HPCC_starts` on nonnegative arguments: it computes
the state reached by `n` scalar transitions from state `1`. -/
theorem starts_eq_r (m : Nat) : HPCC_starts (m : Int) = r m := by
  have hP : PERIOD = (1317624576693539401 : Int) := rfl
  show (let n1 := normSub (normAdd (m : Int));
    if n1 = 0 then 1 else startsLoop n1.toNat (topBitIndex n1.toNat).toNat 2) = r m
  rw [normAdd_of_nonneg (Int.natCast_nonneg m)]
  obtain ⟨t, ht, h0, hle⟩ := normSub_spec (m : Int) (Int.natCast_nonneg m)
  by_cases hz : normSub (m : Int) = 0
  · simp only [hz, if_pos rfl]
    have hmt : m = 0 + t * PN := by
      rw [hz, hP] at ht
      simp only [PN]
      omega
    conv_rhs => rw [hmt]
    rw [r_add_mul_PN]
    rfl
  · simp only [if_neg hz]
    have h1 : 1 ≤ (normSub (m : Int)).toNat := by omega
    have h2 : (normSub (m : Int)).toNat < 2 ^ 63 := by
      rw [hP] at hle
      omega
    rw [starts_core_correct h1 h2]
    have hmt : m = (normSub (m : Int)).toNat + t * PN := by
      rw [hP] at ht
      simp only [PN]
      omega
    conv_rhs => rw [hmt]
    rw [r_add_mul_PN]

/-! ### Table updates as XOR folds -/

theorem xorUpdate_right_comm (TableSize : Nat) (tab : Nat → Nat) (v w : Nat) :
    xorUpdate TableSize (xorUpdate TableSize tab v) w
      = xorUpdate TableSize (xorUpdate TableSize tab w) v := by
  funext idx
  show (if idx = maskIdx TableSize w
        then (if idx = maskIdx TableSize v then tab idx ^^^ v else tab idx) ^^^ w
        else (if idx = maskIdx TableSize v then tab idx ^^^ v else tab idx))
      = (if idx = maskIdx TableSize v
        then (if idx = maskIdx TableSize w then tab idx ^^^ w else tab idx) ^^^ v
        else (if idx = maskIdx TableSize w then tab idx ^^^ w else tab idx))
  split_ifs <;>
    first
      | rfl
      | rw [Nat.xor_assoc, Nat.xor_assoc, Nat.xor_comm v w]

instance (TableSize : Nat) : RightCommutative (xorUpdate TableSize) :=
  ⟨xorUpdate_right_comm TableSize⟩

theorem applyVals_perm (TableSize : Nat) (tab : Nat → Nat) {vs vs' : List Nat}
    (h : vs.Perm vs') : applyVals TableSize tab vs = applyVals TableSize tab vs' :=
  h.foldl_eq tab

theorem applyVals_append (TableSize : Nat) (tab : Nat → Nat) (vs ws : List Nat) :
    applyVals TableSize tab (vs ++ ws)
      = applyVals TableSize (applyVals TableSize tab vs) ws :=
  List.foldl_append _ _ _ _

theorem xorUpdate_cancel (TableSize : Nat) (tab : Nat → Nat) (v : Nat) :
    xorUpdate TableSize (xorUpdate TableSize tab v) v = tab := by
  funext idx
  simp only [xorUpdate]
  by_cases h : idx = maskIdx TableSize v
  · rw [if_pos h, if_pos h, Nat.xor_assoc, Nat.xor_self, Nat.xor_zero]
  · rw [if_neg h, if_neg h]

/-- XOR-ing the same list of updates twice leaves any table unchanged. -/
theorem applyVals_self_twice (TableSize : Nat) :
    ∀ (vs : List Nat) (tab : Nat → Nat),
      applyVals TableSize tab (vs ++ vs) = tab := by
  intro vs
  induction vs with
  | nil => intro tab; rfl
  | cons v vs ih =>
      intro tab
      show applyVals TableSize tab (v :: (vs ++ v :: vs)) = tab
      show applyVals TableSize (xorUpdate TableSize tab v) (vs ++ v :: vs) = tab
      rw [applyVals_perm TableSize _ (@List.perm_middle Nat v vs vs)]
      show applyVals TableSize
        (xorUpdate TableSize (xorUpdate TableSize tab v) v) (vs ++ vs) = tab
      rw [xorUpdate_cancel]
      exact ih tab

/-- The update values consumed by the scalar pass. -/
def scalarVals (N : Nat) : List Nat := (List.range N).map (fun i => r (i + 1))

theorem scalar_fold (TableSize : Nat) : ∀ (N m : Nat) (tab : Nat → Nat),
    (List.range N).foldl
        (fun (s : Nat × (Nat → Nat)) _ =>
          (step s.1, xorUpdate TableSize s.2 (step s.1)))
        (r m, tab)
      = (r (m + N),
         applyVals TableSize tab ((List.range N).map (fun i => r (m + i + 1)))) := by
  intro N
  induction N with
  | zero =>
      intro m tab
      simp [applyVals]
  | succ N ih =>
      intro m tab
      rw [List.range_succ, List.foldl_append, ih, List.map_append]
      show (step (r (m + N)), xorUpdate TableSize _ (step (r (m + N)))) = _
      rw [applyVals_append]
      show (step (r (m + N)), xorUpdate TableSize _ (step (r (m + N)))) = _
      rw [← r_succ]
      rfl

/-- The scalar pass is the fold of the reference update values. -/
theorem scalarPass_eq (TableSize : Nat) (tab : Nat → Nat) :
    scalarPass TableSize tab
      = applyVals TableSize tab (scalarVals (NUPDATE TableSize)) := by
  unfold scalarPass
  rw [show (1 : Nat) = r 0 from rfl, scalar_fold]
  show applyVals TableSize tab _ = _
  unfold scalarVals
  have hmap : List.map (fun i => r (0 + i + 1)) (List.range (NUPDATE TableSize))
      = List.map (fun i => r (i + 1)) (List.range (NUPDATE TableSize)) :=
    List.map_congr_left (fun i _ => by rw [Nat.zero_add])
  rw [hmap]

/-! ### The 128-stream update loop -/

/-- One pass of the inner `j`-loop over streams `0 ≤ j < J`: every touched
stream advances one transition, and the table absorbs the new values in
stream order. -/
theorem inner_fold (TableSize : Nat) : ∀ (J : Nat) (ran : Nat → Nat) (tab : Nat → Nat),
    (List.range J).foldl (streamStep TableSize) (ran, tab)
      = (fun j => if j < J then step (ran j) else ran j,
         applyVals TableSize tab ((List.range J).map (fun j => step (ran j)))) := by
  intro J
  induction J with
  | zero =>
      intro ran tab
      apply Prod.ext
      · funext j
        simp
      · simp [applyVals]
  | succ J ih =>
      intro ran tab
      conv_lhs => rw [List.range_succ]
      rw [List.foldl_append, ih]
      show streamStep TableSize (_, _) J = _
      unfold streamStep
      have hJ : (if J < J then step (ran J) else ran J) = ran J := by
        rw [if_neg (lt_irrefl J)]
      apply Prod.ext
      · show Function.update (fun j => if j < J then step (ran j) else ran j) J
            (step (if J < J then step (ran J) else ran J))
          = fun j => if j < J + 1 then step (ran j) else ran j
        rw [hJ]
        funext j
        by_cases hj : j = J
        · subst hj
          rw [Function.update_same, if_pos (Nat.lt_succ_self j)]
        · rw [Function.update_noteq hj]
          by_cases hlt : j < J
          · rw [if_pos hlt, if_pos (by omega)]
          · rw [if_neg hlt, if_neg (by omega)]
      · show xorUpdate TableSize
            (applyVals TableSize tab ((List.range J).map (fun j => step (ran j))))
            (step (if J < J then step (ran J) else ran J))
          = applyVals TableSize tab ((List.range (J + 1)).map (fun j => step (ran j)))
        rw [hJ, List.range_succ, List.map_append, applyVals_append]
        rfl

/-- The outer `i`-loop: after `I` rounds, stream `j` holds state
`r (Q*j + I)` and the table has absorbed all values of the first `I` rounds
in round-then-stream order. -/
theorem outer_fold (TableSize Q : Nat) (ran0 : Nat → Nat)
    (h0 : ∀ j, j < 128 → ran0 j = r (Q * j)) :
    ∀ (I : Nat) (tab : Nat → Nat),
    (List.range I).foldl
        (fun s _ => (List.range 128).foldl (streamStep TableSize) s) (ran0, tab)
      = (fun j => if j < 128 then r (Q * j + I) else ran0 j,
         applyVals TableSize tab
           ((List.range I).flatMap
             (fun i => (List.range 128).map (fun j => r (Q * j + i + 1))))) := by
  intro I
  induction I with
  | zero =>
      intro tab
      apply Prod.ext
      · funext j
        show ran0 j = if j < 128 then r (Q * j + 0) else ran0 j
        by_cases hj : j < 128
        · rw [if_pos hj, h0 j hj, Nat.add_zero]
        · rw [if_neg hj]
      · simp [applyVals]
  | succ I ih =>
      intro tab
      conv_lhs => rw [List.range_succ I]
      rw [List.foldl_append, ih]
      simp only [List.foldl_cons, List.foldl_nil]
      rw [inner_fold]
      apply Prod.ext
      · funext j
        dsimp only
        split_ifs with hj
        · rw [← r_succ, Nat.add_assoc]
        · rfl
      · show applyVals TableSize
            (applyVals TableSize tab
              ((List.range I).flatMap
                (fun i => (List.range 128).map (fun j => r (Q * j + i + 1)))))
            ((List.range 128).map
              (fun j => step (if j < 128 then r (Q * j + I) else ran0 j)))
          = _
        rw [List.range_succ I, List.flatMap_append, List.flatMap_singleton,
          applyVals_append]
        dsimp only
        have hmaps : List.map (fun j => step (if j < 128 then r (Q * j + I) else ran0 j))
            (List.range 128) = List.map (fun j => r (Q * j + I + 1)) (List.range 128) := by
          apply List.map_congr_left
          intro j hj
          rw [if_pos (List.mem_range.1 hj), ← r_succ]
        rw [hmaps]

/-! ### The interleaved index enumeration is a permutation of `0..N-1` -/

theorem NUPDATE_facts {k : Nat} (h7 : 7 ≤ k) (h63 : k ≤ 63) :
    NUPDATE (2 ^ k) ≤ 2 ^ 63 ∧ 128 ∣ NUPDATE (2 ^ k) := by
  have h4 : 4 * 2 ^ k = 2 ^ (k + 2) := by
    rw [pow_add]
    ring
  unfold NUPDATE
  rw [h4]
  by_cases hk : k ≤ 61
  · have hlt : (2 : Nat) ^ (k + 2) < 2 ^ 64 :=
      Nat.pow_lt_pow_right (by norm_num) (by omega)
    rw [Nat.mod_eq_of_lt hlt]
    exact ⟨Nat.pow_le_pow_right (by norm_num) (by omega),
      (by norm_num : (128 : Nat) = 2 ^ 7) ▸ pow_dvd_pow 2 (by omega)⟩
  · have hdvd : (2 : Nat) ^ 64 ∣ 2 ^ (k + 2) := pow_dvd_pow 2 (by omega)
    rw [Nat.dvd_iff_mod_eq_zero.mp hdvd]
    exact ⟨by norm_num, by norm_num⟩

theorem index_perm (Q : Nat) :
    ((List.range Q).flatMap (fun i => (List.range 128).map (fun j => Q * j + i))).Perm
      (List.range (128 * Q)) := by
  rcases Nat.eq_zero_or_pos Q with hQ | hQ
  · subst hQ
    simp
  · apply List.perm_of_nodup_nodup_toFinset_eq
    · rw [List.nodup_flatMap]
      refine ⟨fun i _ => ?_, ?_⟩
      · refine List.Nodup.map (fun a b hab => ?_) (List.nodup_range 128)
        have hQab : Q * a = Q * b := by omega
        exact Nat.eq_of_mul_eq_mul_left hQ hQab
      · apply List.Pairwise.imp_of_mem ?_ (List.pairwise_lt_range Q)
        intro i i' hi hi' hlt a hai hai'
        obtain ⟨j, _, hja⟩ := List.mem_map.1 hai
        obtain ⟨j', _, hja'⟩ := List.mem_map.1 hai'
        have hiQ : i < Q := List.mem_range.1 hi
        have hi'Q : i' < Q := List.mem_range.1 hi'
        have e1 : (Q * j + i) % Q = i := by
          rw [Nat.add_comm, Nat.add_mul_mod_self_left, Nat.mod_eq_of_lt hiQ]
        have e2 : (Q * j' + i') % Q = i' := by
          rw [Nat.add_comm, Nat.add_mul_mod_self_left, Nat.mod_eq_of_lt hi'Q]
        rw [hja] at e1
        rw [hja'] at e2
        omega
    · exact List.nodup_range _
    · apply Finset.ext_iff.2
      intro a
      simp only [List.mem_toFinset, List.mem_flatMap, List.mem_map, List.mem_range]
      constructor
      · rintro ⟨i, hi, j, hj, rfl⟩
        calc Q * j + i < Q * (j + 1) := by ring_nf; omega
          _ ≤ Q * 128 := Nat.mul_le_mul le_rfl (by omega)
          _ = 128 * Q := Nat.mul_comm _ _
      · intro ha
        exact ⟨a % Q, Nat.mod_lt _ hQ, a / Q, (Nat.div_lt_iff_lt_mul hQ).2 ha,
          Nat.div_add_mod a Q⟩

/-- The multiset of values the 128 streams feed to the table is exactly the
multiset of the first `128 * Q` scalar reference values. -/
theorem stream_perm (Q : Nat) :
    ((List.range Q).flatMap
        (fun i => (List.range 128).map (fun j => r (Q * j + i + 1)))).Perm
      (scalarVals (128 * Q)) := by
  have hflat : (List.range Q).flatMap
        (fun i => (List.range 128).map (fun j => r (Q * j + i + 1)))
      = ((List.range Q).flatMap
          (fun i => (List.range 128).map (fun j => Q * j + i))).map
            (fun m => r (m + 1)) := by
    rw [List.map_flatMap]
    simp only [List.map_map]
    rfl
  rw [hflat]
  exact List.Perm.map _ (index_perm Q)

/-- The streams start at the states the jump-ahead promises. -/
theorem streamInit_eq {TableSize : Nat} (hNle : NUPDATE TableSize ≤ 2 ^ 63) :
    ∀ j, j < 128 → streamInit TableSize j = r (NUPDATE TableSize / 128 * j) := by
  intro j hj
  unfold streamInit
  have hQ : NUPDATE TableSize / 128 ≤ 2 ^ 63 / 128 := Nat.div_le_div_right hNle
  have hQj : NUPDATE TableSize / 128 * j < 2 ^ 63 := by
    have h2 : NUPDATE TableSize / 128 * j ≤ 2 ^ 63 / 128 * 127 :=
      Nat.mul_le_mul hQ (by omega)
    have h3 : (2 : Nat) ^ 63 / 128 * 127 < 2 ^ 63 := by norm_num
    omega
  rw [Nat.mod_eq_of_lt (lt_trans hQj (by norm_num))]
  unfold toInt64
  rw [if_pos hQj]
  exact starts_eq_r _

/-- Central refinement: the 128-stream interleaved update leaves exactly the
same table as the scalar single-stream pass, for any power-of-two table size
that is at least 128 (and representable), and any initial table. -/
theorem RandomAccessUpdate_eq_scalar {TableSize k : Nat} (hTS : TableSize = 2 ^ k)
    (h7 : 7 ≤ k) (h63 : k ≤ 63) (tab : Nat → Nat) :
    RandomAccessUpdate TableSize tab = scalarPass TableSize tab := by
  subst hTS
  obtain ⟨hNle, hNdvd⟩ := NUPDATE_facts h7 h63
  unfold RandomAccessUpdate
  rw [outer_fold (2 ^ k) (NUPDATE (2 ^ k) / 128) (streamInit (2 ^ k))
    (streamInit_eq hNle) (NUPDATE (2 ^ k) / 128) tab]
  dsimp only
  rw [applyVals_perm _ tab (stream_perm (NUPDATE (2 ^ k) / 128)),
    Nat.mul_div_cancel' hNdvd, ← scalarPass_eq]

/-- C1: `RandomAccessUpdate` with 128 interleaved streams (stream `j`
initialized to `HPCC_starts((NUPDATE/128)*j)`, each advanced `NUPDATE/128`
times, XORing `Table[state & (TableSize-1)] ^= state`) produces, for every
power-of-two `TableSize ≥ 128` (representable in `uint64_t`) and every
initial table, exactly the same final table contents as the scalar
single-stream reference loop that starts from state `1` and performs
`NUPDATE` transition-then-XOR steps. -/
theorem interleaved_update_refines_scalar (TableSize : Nat)
    (hpow : ∃ k, TableSize = 2 ^ k) (h128 : 128 ≤ TableSize)
    (h64 : TableSize < 2 ^ 64) (tab : Nat → Nat) :
    RandomAccessUpdate TableSize tab = scalarPass TableSize tab := by
  obtain ⟨k, hk⟩ := hpow
  subst hk
  have h7 : 7 ≤ k := by
    by_contra h
    have : (2 : Nat) ^ k < 2 ^ 7 := Nat.pow_lt_pow_right (by norm_num) (by omega)
    norm_num at this
    omega
  have h63 : k ≤ 63 := by
    by_contra h
    have : (2 : Nat) ^ 64 ≤ 2 ^ k := Nat.pow_le_pow_right (by norm_num) (by omega)
    omega
  exact RandomAccessUpdate_eq_scalar rfl h7 h63 tab

/-- Witness for C1 at the smallest admissible table size. -/
theorem interleaved_update_refines_scalar_witness :
    (∃ k, (128 : Nat) = 2 ^ k) ∧ (128 : Nat) ≤ 128 ∧ (128 : Nat) < 2 ^ 64 ∧
      RandomAccessUpdate 128 (fun i => i) = scalarPass 128 (fun i => i) :=
  ⟨⟨7, by norm_num⟩, le_rfl, by norm_num,
    interleaved_update_refines_scalar 128 ⟨7, by norm_num⟩ le_rfl (by norm_num) _⟩

/-! ### Verification replay -/

/-- Replaying the scalar pass on top of itself undoes every update. -/
theorem scalarPass_involutive (TableSize : Nat) (tab : Nat → Nat) :
    scalarPass TableSize (scalarPass TableSize tab) = tab := by
  rw [scalarPass_eq, scalarPass_eq, ← applyVals_append, applyVals_self_twice]

theorem errorCount_foldl (tab : Nat → Nat) :
    ∀ (l : List Nat) (c : Nat), (∀ i ∈ l, tab i = i) →
      l.foldl (fun temp i => if tab i ≠ i then temp + 1 else temp) c = c := by
  intro l
  induction l with
  | nil => intro c _; rfl
  | cons x l ih =>
      intro c h
      show l.foldl _ (if tab x ≠ x then c + 1 else c) = c
      rw [if_neg (by simp [h x (List.mem_cons_self x l)]), ih c
        (fun i hi => h i (List.mem_cons_of_mem x hi))]

theorem errorCount_zero (TableSize : Nat) {tab : Nat → Nat}
    (h : ∀ i, tab i = i) : errorCount TableSize tab = 0 :=
  errorCount_foldl tab (List.range TableSize) 0 (fun i _ => h i)

/-- C3: for every representable power-of-two `TableSize ≥ 128` with the
table initialized to `Table[i] = i`, running `RandomAccessUpdate` and then
the scalar verification replay returns every entry to `Table[i] = i`; the
error count is exactly `0` — not merely below the 1% tolerance — so the run
reports `passed`. -/
theorem replay_restores_identity (TableSize : Nat)
    (hpow : ∃ k, TableSize = 2 ^ k) (h128 : 128 ≤ TableSize)
    (h64 : TableSize < 2 ^ 64) :
    (∀ i, scalarPass TableSize (RandomAccessUpdate TableSize (fun x => x)) i = i) ∧
      errorCount TableSize
        (scalarPass TableSize (RandomAccessUpdate TableSize (fun x => x))) = 0 ∧
      verdict TableSize
        (errorCount TableSize
          (scalarPass TableSize (RandomAccessUpdate TableSize (fun x => x))))
        = "passed" := by
  obtain ⟨k, hk⟩ := hpow
  have h7 : 7 ≤ k := by
    by_contra h
    have : (2 : Nat) ^ k < 2 ^ 7 := Nat.pow_lt_pow_right (by norm_num) (by omega)
    norm_num at this
    omega
  have h63 : k ≤ 63 := by
    by_contra h
    have : (2 : Nat) ^ 64 ≤ 2 ^ k := Nat.pow_le_pow_right (by norm_num) (by omega)
    omega
  have hfinal : scalarPass TableSize (RandomAccessUpdate TableSize (fun x => x))
      = fun x => x := by
    rw [RandomAccessUpdate_eq_scalar hk h7 h63, scalarPass_involutive]
  have hid : ∀ i, scalarPass TableSize (RandomAccessUpdate TableSize (fun x => x)) i = i := by
    intro i
    rw [hfinal]
  have hcount : errorCount TableSize
      (scalarPass TableSize (RandomAccessUpdate TableSize (fun x => x))) = 0 :=
    errorCount_zero TableSize hid
  refine ⟨hid, hcount, ?_⟩
  rw [hcount]
  unfold verdict
  rw [if_pos ?_]
  push_cast
  positivity

/-- Witness for C3 at the smallest admissible table size. -/
theorem replay_restores_identity_witness :
    (∃ k, (128 : Nat) = 2 ^ k) ∧ (128 : Nat) ≤ 128 ∧ (128 : Nat) < 2 ^ 64 ∧
      errorCount 128 (scalarPass 128 (RandomAccessUpdate 128 (fun x => x))) = 0 :=
  ⟨⟨7, by norm_num⟩, le_rfl, by norm_num,
    (replay_restores_identity 128 ⟨7, by norm_num⟩ le_rfl (by norm_num)).2.1⟩

/-! ### Claim theorems: jump-ahead, periodicity, invariants -/

/-- C2: for every `n` in `[0, 10000]`, `HPCC_starts n` equals the state
obtained by applying the scalar transition rule exactly `n` times starting
from state `1` (bit-exact equality). -/
theorem jump_ahead_eq_iteration (n : Nat) (h : n ≤ 10000) :
    HPCC_starts (n : Int) = r n :=
  starts_eq_r n

/-- Witness for C2. -/
theorem jump_ahead_eq_iteration_witness :
    (5 : Nat) ≤ 10000 ∧ HPCC_starts ((5 : Nat) : Int) = r 5 :=
  ⟨by norm_num, jump_ahead_eq_iteration 5 (by norm_num)⟩

theorem starts_zero : HPCC_starts 0 = 1 := starts_eq_r 0

theorem starts_PERIOD : HPCC_starts PERIOD = 1 := by
  rw [PERIOD_eq, starts_eq_r, r_PN]

/-- C7: the periodicity laws of `HPCC_starts`: `starts 0 = 1`,
`starts PERIOD = starts 0`, and `starts (n + PERIOD) = starts n` for every
`n` for which both `n` and `n + PERIOD` are representable as 64-bit signed
integers. -/
theorem starts_periodicity :
    HPCC_starts 0 = 1 ∧ HPCC_starts PERIOD = HPCC_starts 0 ∧
      ∀ n : Int, -(2 ^ 63) ≤ n → n + PERIOD < 2 ^ 63 →
        HPCC_starts (n + PERIOD) = HPCC_starts n := by
  refine ⟨starts_zero, by rw [starts_PERIOD, starts_zero], ?_⟩
  intro n _ _
  rcases lt_trichotomy n 0 with hn | hn | hn
  · show (let n1 := normSub (normAdd (n + PERIOD));
      if n1 = 0 then 1 else startsLoop n1.toNat (topBitIndex n1.toNat).toNat 2)
      = (let n1 := normSub (normAdd n);
      if n1 = 0 then 1 else startsLoop n1.toNat (topBitIndex n1.toNat).toNat 2)
    rw [normAdd_of_neg hn]
  · subst hn
    rw [zero_add, starts_PERIOD, starts_zero]
  · show (let n1 := normSub (normAdd (n + PERIOD));
      if n1 = 0 then 1 else startsLoop n1.toNat (topBitIndex n1.toNat).toNat 2)
      = (let n1 := normSub (normAdd n);
      if n1 = 0 then 1 else startsLoop n1.toNat (topBitIndex n1.toNat).toNat 2)
    have hP : PERIOD = (1317624576693539401 : Int) := rfl
    rw [normAdd_of_nonneg (by rw [hP]; omega), normAdd_of_nonneg (by omega),
      normSub_of_gt (by rw [hP]; omega), add_sub_cancel_right]

/-- Witness for C7's quantified conjunct. -/
theorem starts_periodicity_witness :
    -((2 : Int) ^ 63) ≤ 5 ∧ (5 : Int) + PERIOD < 2 ^ 63 ∧
      HPCC_starts (5 + PERIOD) = HPCC_starts 5 :=
  ⟨by norm_num, by rw [PERIOD_eq]; norm_num [PN],
    starts_periodicity.2.2 5 (by norm_num) (by rw [PERIOD_eq]; norm_num [PN])⟩

/-- C9: starting from state `1`, none of the first `10 ^ 6` iterates of the
transition rule is the all-zero value — nonzeroness is an invariant of the
generated sequence. -/
theorem generated_states_nonzero (m : Nat) (h : m ≤ 10 ^ 6) : r m ≠ 0 :=
  r_ne_zero m

/-- Witness for C9. -/
theorem generated_states_nonzero_witness : (10 : Nat) ≤ 10 ^ 6 ∧ r 10 ≠ 0 :=
  ⟨by norm_num, generated_states_nonzero 10 (by norm_num)⟩

/-- C8: for every 64-bit value `v` and every power-of-two table size,
the masked index `v & (TableSize - 1)` used by the update and verification
loops equals `v mod TableSize`. -/
theorem maskIdx_eq_mod (v k : Nat) (hv : v < 2 ^ 64) :
    maskIdx (2 ^ k) v = v % 2 ^ k := by
  unfold maskIdx
  exact Nat.and_pow_two_sub_one_eq_mod v k

/-- Witness for C8. -/
theorem maskIdx_eq_mod_witness :
    (5 : Nat) < 2 ^ 64 ∧ maskIdx (2 ^ 3) 5 = 5 % 2 ^ 3 :=
  ⟨by norm_num, maskIdx_eq_mod 5 3 (by norm_num)⟩

/-! ### The table-size derivation of `main` -/

theorem floor_half_lt {tm : ℚ} (h : 1 ≤ tm) : ⌊tm * (1 / 2)⌋₊ < ⌊tm⌋₊ := by
  have h2 : tm * (1 / 2) = tm / ((2 : ℕ) : ℚ) := by push_cast; ring
  rw [h2, Nat.floor_div_nat]
  exact Nat.div_lt_self (Nat.floor_pos.2 h) one_lt_two

theorem sizeLoopAux_mono : ∀ (fuel fuel' : Nat) (tm : ℚ) (logTS TS : Nat),
    ⌊tm⌋₊ < fuel → ⌊tm⌋₊ < fuel' →
      sizeLoopAux fuel tm logTS TS = sizeLoopAux fuel' tm logTS TS := by
  intro fuel
  induction fuel with
  | zero => omega
  | succ f ih =>
      intro fuel' tm logTS TS h h'
      cases fuel' with
      | zero => omega
      | succ f' =>
          show (if 1 ≤ tm then
              sizeLoopAux f (tm * (1 / 2)) (logTS + 1) (TS * 2 % 2 ^ 64)
            else (logTS, TS)) = (if 1 ≤ tm then
              sizeLoopAux f' (tm * (1 / 2)) (logTS + 1) (TS * 2 % 2 ^ 64)
            else (logTS, TS))
          by_cases hc : 1 ≤ tm
          · rw [if_pos hc, if_pos hc]
            have hfl := floor_half_lt hc
            exact ih f' _ _ _ (by omega) (by omega)
          · rw [if_neg hc, if_neg hc]

/-- The `while`-loop equation of the size-derivation loop. -/
theorem sizeLoop_eq (tm : ℚ) (logTS TS : Nat) :
    sizeLoop tm logTS TS
      = if 1 ≤ tm then sizeLoop (tm * (1 / 2)) (logTS + 1) (TS * 2 % 2 ^ 64)
        else (logTS, TS) := by
  show (if 1 ≤ tm then
      sizeLoopAux ⌊tm⌋₊ (tm * (1 / 2)) (logTS + 1) (TS * 2 % 2 ^ 64)
    else (logTS, TS)) = _
  by_cases hc : 1 ≤ tm
  · rw [if_pos hc, if_pos hc]
    exact sizeLoopAux_mono ⌊tm⌋₊ (⌊tm * (1 / 2)⌋₊ + 1) _ _ _ (floor_half_lt hc)
      (Nat.lt_succ_self _)
  · rw [if_neg hc, if_neg hc]

theorem sizeLoop_pow : ∀ (m logTS TS : Nat),
    sizeLoop ((2 : ℚ) ^ m) logTS TS = (logTS + m + 1, TS * 2 ^ (m + 1) % 2 ^ 64) := by
  intro m
  induction m with
  | zero =>
      intro logTS TS
      rw [sizeLoop_eq, pow_zero, if_pos le_rfl, sizeLoop_eq,
        if_neg (by norm_num)]
      norm_num
  | succ m ih =>
      intro logTS TS
      rw [sizeLoop_eq, if_pos (one_le_pow₀ (by norm_num)),
        show (2 : ℚ) ^ (m + 1) * (1 / 2) = 2 ^ m by rw [pow_succ]; ring, ih]
      apply Prod.ext
      · show logTS + 1 + m + 1 = logTS + (m + 1) + 1
        omega
      · show TS * 2 % 2 ^ 64 * 2 ^ (m + 1) % 2 ^ 64 = TS * 2 ^ (m + 1 + 1) % 2 ^ 64
        rw [Nat.mod_mul_mod]
        congr 1
        ring

theorem mainSizeCalc_pow : mainSizeCalc = sizeLoop (2 ^ 28 : ℚ) 0 1 := by
  unfold mainSizeCalc
  rw [show (2 ^ 32 : ℚ) / 8 * (1 / 2) = 2 ^ 28 by norm_num]

theorem mainSizeCalc_eq : mainSizeCalc = (29, 2 ^ 29) := by
  rw [mainSizeCalc_pow, sizeLoop_pow]
  norm_num

theorem mainTableSize_val : mainTableSize = 2 ^ 29 :=
  congrArg Prod.snd mainSizeCalc_eq

theorem mainLogTableSize_val : mainLogTableSize = 29 :=
  congrArg Prod.fst mainSizeCalc_eq

/-- C4 counterexample: `main` does not derive `TableSize = 2 ^ 28` with
`logTableSize = 28`; the nominal `2 ^ 32`-byte budget is divided by the word
size but not additionally halved, so the loop yields `2 ^ 29` words. -/
theorem main_size_claim_false :
    mainTableSize = 2 ^ 29 ∧ (mainTableSize = 2 ^ 28 → False) := by
  refine ⟨mainTableSize_val, fun h1 => ?_⟩
  rw [mainTableSize_val] at h1
  norm_num at h1

/-- C4 amended: `main` derives `TableSize` as the largest power of two that
fits in the full word count of the nominal memory budget,
`(2 ^ 32 bytes) / sizeof(uint64_t) = 2 ^ 29` words, with matching exponent
`logTableSize = 29`. -/
theorem main_size_correct : mainTableSize = 2 ^ 29 ∧ mainLogTableSize = 29 :=
  ⟨mainTableSize_val, mainLogTableSize_val⟩

/-! ### Throughput reporting and the verdict -/

/-- C5 counterexample: with elapsed time `0` the printed GUPs value is not
the sentinel `-1.0`; the sentinel is multiplied by `1e-9 * NUPDATE` before
printing. -/
theorem reported_gups_not_minus_one :
    reportedGUPs mainTableSize 0 = -(2 ^ 31 / 10 ^ 9) ∧
      (reportedGUPs mainTableSize 0 = -1 → False) := by
  have hval : reportedGUPs mainTableSize 0 = -(2 ^ 31 / 10 ^ 9) := by
    unfold reportedGUPs gupsRate
    rw [if_neg (lt_irrefl 0), mainTableSize_val,
      show NUPDATE (2 ^ 29) = 2 ^ 31 by norm_num [NUPDATE]]
    norm_num
  refine ⟨hval, fun h1 => ?_⟩
  rw [hval] at h1
  norm_num at h1

/-- C5 amended: whenever the measured elapsed time is zero or negative, no
division by the elapsed time occurs — the guarded rate is the sentinel
`-1.0` — and the GUPs value actually reported is that sentinel scaled by
`1e-9 * NUPDATE`, i.e. `-(2 ^ 31 / 10 ^ 9)`, not `-1.0` itself. -/
theorem gups_sentinel (realtime : ℚ) (h : realtime ≤ 0) :
    gupsRate realtime = -1 ∧
      reportedGUPs mainTableSize realtime = -(2 ^ 31 / 10 ^ 9) := by
  have hrate : gupsRate realtime = -1 := by
    unfold gupsRate
    rw [if_neg (not_lt.2 h)]
  refine ⟨hrate, ?_⟩
  unfold reportedGUPs
  rw [hrate, mainTableSize_val, show NUPDATE (2 ^ 29) = 2 ^ 31 by norm_num [NUPDATE]]
  norm_num

/-- Witness for C5's amended statement. -/
theorem gups_sentinel_witness :
    (0 : ℚ) ≤ 0 ∧ gupsRate 0 = -1 ∧
      reportedGUPs mainTableSize 0 = -(2 ^ 31 / 10 ^ 9) :=
  ⟨le_rfl, (gups_sentinel 0 le_rfl).1, (gups_sentinel 0 le_rfl).2⟩

theorem errorCount_countP (tab : Nat → Nat) :
    ∀ (l : List Nat) (c : Nat),
      l.foldl (fun temp i => if tab i ≠ i then temp + 1 else temp) c
        = c + l.countP (fun i => tab i != i) := by
  intro l
  induction l with
  | nil => intro c; simp
  | cons x l ih =>
      intro c
      show l.foldl _ (if tab x ≠ x then c + 1 else c)
        = c + (x :: l).countP (fun i => tab i != i)
      rw [ih, List.countP_cons]
      by_cases h : tab x = x <;> simp [h] <;> omega

/-- C6: the program counts the positions `i < TableSize` with
`Table[i] ≠ i`, and reports `passed` exactly when that count is at most
`0.01 * TableSize`, and `failed` otherwise. -/
theorem verdict_iff_tolerance (TableSize : Nat) (tab : Nat → Nat) :
    errorCount TableSize tab = (List.range TableSize).countP (fun i => tab i != i) ∧
      (verdict TableSize (errorCount TableSize tab) = "passed" ↔
        ((errorCount TableSize tab : ℚ) ≤ 1 / 100 * TableSize)) := by
  constructor
  · show (List.range TableSize).foldl _ 0 = _
    rw [errorCount_countP, Nat.zero_add]
  · constructor
    · intro hv
      by_cases hc : ((errorCount TableSize tab : ℚ) ≤ 1 / 100 * TableSize)
      · exact hc
      · unfold verdict at hv
        rw [if_neg hc] at hv
        exact absurd hv (by decide)
    · intro hc
      unfold verdict
      rw [if_pos hc]

/-- C10: whenever the table allocation succeeds (the only case `mainRun`
models; allocation failure aborts in `assert`), `main` returns exit code
`0`, whatever the verification outcome or measured time — the verdict never
changes control flow or the exit status. -/
theorem main_exit_code_zero (realtime : ℚ) : (mainRun realtime).exitCode = 0 := rfl

end RandomAccess
